import Mathlib

/-!
Verification model of the `ls-rust` directory-listing tool.

The Rust sources under `src/` are shallowly embedded as Lean functions:
filesystem metadata becomes an explicit record type, directory iteration
becomes a list of `Except`-valued items (one per `read_dir` result), machine
integers become `Nat`, `SystemTime` becomes a `Nat` count of time units since
the Unix epoch, and fallible operations return `Except String`.  External
collaborators (identity resolution via the `users` crate, `chrono` local-time
formatting, and the filesystem itself) are passed in explicitly as functions.

The repository contains two generations of the implementation: the
self-contained `main.rs` (whose `run` drives the whole program and which
duplicates `collect_entries`, the long format and the size formatting
in-file), and the later module files `file_info.rs`, `directory.rs`,
`sorting.rs`, `utils.rs` and `formatter.rs`.  Both are embedded: the module
versions under their source names, the `main.rs` versions inside the
`MainRs` namespace.

The floating-point computation in `format_size_human` is modelled over `ℚ`.
This is branch-exact for the program's `f64` arithmetic at every decision
point relevant below: dividing an `f64` by 1024 is exact (exponent
decrement), `u64 → f64` conversion is exact below `2^53`, and every loop and
branch threshold of the function (`1024·1024^k` for `k < 5`, and `10·1024^k`)
either lies below `2^53` or is far from the rounding error's reach for the
claims at issue (all the concrete and sub-1024 properties proved here involve
only exactly representable values).
-/

namespace LsRust

/-! ## String comparison

Three-way lexicographic comparison by Unicode scalar value, modelling Rust's
derived `Ord` on `str` (byte-wise lexicographic order on UTF-8, which
coincides with scalar-value order for valid strings). -/

def listCmp : List Char → List Char → Ordering
  | [], [] => .eq
  | [], _ :: _ => .lt
  | _ :: _, [] => .gt
  | a :: as, b :: bs =>
    match compare a.toNat b.toNat with
    | .eq => listCmp as bs
    | .lt => .lt
    | .gt => .gt

/-- Model of `str::cmp`: three-way comparison of strings. -/
def strCmp (a b : String) : Ordering :=
  listCmp a.data b.data

/-- Rust `str::starts_with('.')` with a `char` pattern, as used by every
hidden-file check in the sources: the first character is `'.'`. -/
def starts_with_dot (s : String) : Bool :=
  match s.data with
  | [] => false
  | c :: _ => c == '.'

/-! ## Data model: `src/file_info.rs`

`std::fs::Metadata` becomes an explicit record of exactly the fields the
program reads.  `modified` is the result of `metadata.modified()` as a count
of time units since the Unix epoch, with `none` standing for the `Err` case
(unavailable modification time); `mode` holds the Unix permission bits,
`blocks` the 512-byte block count reported by the filesystem, and `readLink`
the result `fs::read_link` would give for the object's path (`none` when the
readlink call itself fails; a symlink whose *target* is missing still reads
back its raw target path successfully). -/

structure Meta where
  len : Nat
  modified : Option Nat
  isDir : Bool
  isSymlink : Bool
  mode : Nat
  uid : Nat
  gid : Nat
  nlink : Nat
  blocks : Nat
  readLink : Option String
deriving DecidableEq

/-- `FileInfo` from `src/file_info.rs`: full path, base name extracted once at
construction time, and the metadata snapshot. -/
structure FileInfo where
  path : String
  file_name : String
  metadata : Meta
deriving DecidableEq

/-- `FileInfo::modified_time`: `self.metadata.modified().unwrap_or(SystemTime::UNIX_EPOCH)`. -/
def FileInfo.modified_time (fi : FileInfo) : Nat :=
  fi.metadata.modified.getD 0

/-- `FileInfo::is_hidden`: `self.file_name.starts_with('.')`. -/
def FileInfo.is_hidden (fi : FileInfo) : Bool :=
  starts_with_dot fi.file_name

/-- `FileInfo::is_dir`: `self.metadata.is_dir()`. -/
def FileInfo.is_dir (fi : FileInfo) : Bool :=
  fi.metadata.isDir

/-- `FileInfo::symlink_target`: `fs::read_link(&self.path).ok()` when the
metadata says symlink, `None` otherwise. -/
def FileInfo.symlink_target (fi : FileInfo) : Option String :=
  if fi.metadata.isSymlink then fi.metadata.readLink else none

/-- `FileInfo::size`: `self.metadata.len()`. -/
def FileInfo.size (fi : FileInfo) : Nat :=
  fi.metadata.len

/-- `FileInfo::uid`. -/
def FileInfo.uid (fi : FileInfo) : Nat :=
  fi.metadata.uid

/-- `FileInfo::gid`. -/
def FileInfo.gid (fi : FileInfo) : Nat :=
  fi.metadata.gid

/-- `FileInfo::nlink`. -/
def FileInfo.nlink (fi : FileInfo) : Nat :=
  fi.metadata.nlink

/-- `FileInfo::modified`: `self.metadata.modified()`, still fallible. -/
def FileInfo.modified (fi : FileInfo) : Option Nat :=
  fi.metadata.modified

/-! ## Directory reading: `src/directory.rs`

`fs::read_dir` yields a sequence of `io::Result<DirEntry>` items; that
sequence is modelled as a `List (Except String DirEntry)`.  A `DirEntry`
carries the entry's base name (`entry.file_name()`), its full path
(`entry.path()`), and the result of `entry.metadata()`. -/

instance {ε α : Type} [DecidableEq ε] [DecidableEq α] : DecidableEq (Except ε α) := fun
  | .error e, .error f =>
    if h : e = f then .isTrue (by rw [h]) else .isFalse (fun he => by cases he; exact h rfl)
  | .error _, .ok _ => .isFalse (fun he => by cases he)
  | .ok _, .error _ => .isFalse (fun he => by cases he)
  | .ok a, .ok b =>
    if h : a = b then .isTrue (by rw [h]) else .isFalse (fun he => by cases he; exact h rfl)

structure DirEntry where
  name : String
  path : String
  metaResult : Except String Meta
deriving DecidableEq

/-- `FileInfo::from_entry`: propagates the metadata error, otherwise builds
the record from the entry's path, base name and metadata. -/
def FileInfo.from_entry (entry : DirEntry) : Except String FileInfo :=
  match entry.metaResult with
  | .ok metadata => .ok ⟨entry.path, entry.name, metadata⟩
  | .error e => .error e

/-- Result of a directory scan: the collected records, and the failures
recorded during the scan.  In `directory.rs::collect_entries` the failures
are printed to stderr (as `ls: {error}` lines) by a loop that runs only after
the scan loop has finished, so `errors` is exactly the sequence of messages
reported after the scan completes, in recording order. -/
structure ScanResult where
  entries : List FileInfo
  errors : List String
deriving DecidableEq

/-- `directory.rs::collect_entries(dir, show_all)` after the `fs::read_dir`
call has succeeded: iterate over the read-dir items, skip hidden names unless
`show_all`, record (instead of propagating) every per-item failure, and keep
scanning. -/
def collect_entries (showAll : Bool) : List (Except String DirEntry) → ScanResult
  | [] => ⟨[], []⟩
  | item :: rest =>
    match item with
    | .ok e =>
      if !showAll && starts_with_dot e.name then
        collect_entries showAll rest
      else
        match FileInfo.from_entry e with
        | .ok fi =>
          let r := collect_entries showAll rest
          ⟨fi :: r.entries, r.errors⟩
        | .error err =>
          let r := collect_entries showAll rest
          ⟨r.entries, err :: r.errors⟩
    | .error err =>
      let r := collect_entries showAll rest
      ⟨r.entries, err :: r.errors⟩

/-- `directory.rs::get_subdirectories`: the non-hidden directory entries. -/
def get_subdirectories (entries : List FileInfo) : List FileInfo :=
  entries.filter fun f => f.is_dir && !f.is_hidden

/-- Specification projection: the failure (if any) that one read-dir item
contributes to a scan with the given flag. -/
def scanError (showAll : Bool) : Except String DirEntry → Option String
  | .error e => some e
  | .ok e =>
    if !showAll && starts_with_dot e.name then none
    else
      match e.metaResult with
      | .ok _ => none
      | .error err => some err

/-- Specification projection: the record (if any) that one read-dir item
contributes to a scan with the given flag. -/
def scanKept (showAll : Bool) : Except String DirEntry → Option FileInfo
  | .error _ => none
  | .ok e =>
    if !showAll && starts_with_dot e.name then none
    else
      match e.metaResult with
      | .ok m => some ⟨e.path, e.name, m⟩
      | .error _ => none

/-! ## Sorting: `src/sorting.rs` -/

/-- `sorting.rs::SortConfig`. -/
structure SortConfig where
  by_time : Bool
  reverse : Bool
deriving DecidableEq

/-- `SortConfig::new`. -/
def SortConfig.new (by_time reverse : Bool) : SortConfig :=
  ⟨by_time, reverse⟩

/-- The comparator closure inside `sorting.rs::sort_entries`: by descending
modification time when `by_time`, otherwise by lower-cased name
(`to_lowercase` is modelled by `String.toLower`; the two agree on ASCII); the
result is flipped when `reverse` is set, exactly as the `match` in the
source. -/
def entryCmp (config : SortConfig) (a b : FileInfo) : Ordering :=
  let cmp :=
    if config.by_time then
      compare b.modified_time a.modified_time
    else
      strCmp a.file_name.toLower b.file_name.toLower
  if config.reverse then
    match cmp with
    | .lt => .gt
    | .gt => .lt
    | .eq => .eq
  else cmp

/-- `sorting.rs::sort_entries`: Rust's `sort_by` is a stable merge sort, so a
stable `mergeSort` with the tie-tolerant reading of the comparator
(`cmp a b ≠ Greater`) models it. -/
def sort_entries (entries : List FileInfo) (config : SortConfig) : List FileInfo :=
  entries.mergeSort fun a b => entryCmp config a b != Ordering.gt

/-- `sorting.rs::sort_directories`: always alphabetical by raw
(case-sensitive) base name. -/
def sort_directories (dirs : List FileInfo) : List FileInfo :=
  dirs.mergeSort fun a b => strCmp a.file_name b.file_name != Ordering.gt

/-! ## Formatting helpers: `src/utils.rs` -/

/-- Right-justification to a minimum width, as Rust's `{:>w}`. -/
def padLeft (w : Nat) (s : String) : String :=
  String.mk (List.replicate (w - s.length) ' ') ++ s

/-- `utils.rs::triplet`: a 3-bit permission value as `rwx`/`-` characters. -/
def triplet (mode : Nat) : String :=
  let r := if mode &&& 0b100 ≠ 0 then "r" else "-"
  let w := if mode &&& 0b010 ≠ 0 then "w" else "-"
  let x := if mode &&& 0b001 ≠ 0 then "x" else "-"
  r ++ w ++ x

/-- `utils.rs::format_permissions`. -/
def format_permissions (m : Meta) : String :=
  let fileType := if m.isDir then "d" else if m.isSymlink then "l" else "-"
  fileType ++ triplet (m.mode >>> 6) ++ triplet (m.mode >>> 3) ++ triplet m.mode

/-- The `UNITS` constant of `utils.rs::format_size_human`. -/
def UNITS : List String := ["", "K", "M", "G", "T", "P"]

/-- The `while size >= 1024.0 && unit_index < UNITS.len() - 1` loop of
`format_size_human`, returning the final `unit_index`.

The running `f64` value after `k` divisions is exactly `n / 1024^k` (division
of an `f64` by 1024 only decrements the exponent), so instead of a float the
model carries the numerator `n` and the unit index, and the loop condition
`size >= 1024.0` becomes `1024^(idx+1) ≤ n`.  `fuel` is the number of
divisions still allowed (`UNITS.len() - 1 - unit_index`), so both loop
conditions are captured. -/
def humanLoop : Nat → Nat → Nat → Nat
  | 0, _, idx => idx
  | fuel + 1, n, idx =>
    if 1024 ^ (idx + 1) ≤ n then humanLoop fuel n (idx + 1) else idx

/-- Rust's float formatting rounds to nearest, ties to even; `rhe a b` is
that rounding of the exact quotient `a / b` (for `b > 0`). -/
def rhe (a b : Nat) : Nat :=
  let q := a / b
  let r := a % b
  if 2 * r < b then q
  else if b < 2 * r then q + 1
  else if q % 2 = 0 then q else q + 1

/-- `utils.rs::format_size_human` (also duplicated verbatim in `main.rs`):
divide by 1024 while the value is at least 1024 and a larger unit remains;
`{:>4}` plain bytes when no division occurred, `{:>3.0}` when the scaled
value `n / 1024^idx` is at least 10, `{:>3.1}` (one decimal place) otherwise,
suffixed with the unit letter.  The scaled comparisons and rounded digits are
computed exactly from the numerator. -/
def format_size_human (n : Nat) : String :=
  let idx := humanLoop 5 n 0
  if idx = 0 then
    padLeft 4 (toString n)
  else if 10 * 1024 ^ idx ≤ n then
    padLeft 3 (toString (rhe n (1024 ^ idx))) ++ UNITS.getD idx ""
  else
    let d := rhe (10 * n) (1024 ^ idx)
    padLeft 3 (toString (d / 10) ++ "." ++ toString (d % 10)) ++ UNITS.getD idx ""

/-- `utils.rs::format_block_size` (unix branch):
`format!("{:>8}", (metadata.blocks() * 512).div_ceil(1024))`. -/
def format_block_size (m : Meta) : String :=
  padLeft 8 (toString ((m.blocks * 512 + 1024 - 1) / 1024))

/-- ANSI escape wrapping as produced by the `colored` crate when coloring is
active. -/
def ansiWrap (code : String) (s : String) : String :=
  "\x1b[" ++ code ++ "m" ++ s ++ "\x1b[0m"

/-- `utils.rs::colorize_name`: blue directories, red any-executable files,
green world-readable files, white otherwise. -/
def colorize_name (name : String) (m : Meta) : String :=
  if m.isDir then ansiWrap "34" name
  else if m.mode &&& 0o111 ≠ 0 then ansiWrap "31" name
  else if m.mode &&& 0o004 ≠ 0 then ansiWrap "32" name
  else ansiWrap "37" name

/-- External collaborators: user/group id → name resolution (the `users`
crate) and `chrono` local-time formatting (`"%b %d %H:%M"`), which depends on
the process time zone and locale and is therefore kept abstract. -/
structure Env where
  users : Nat → Option String
  groups : Nat → Option String
  fmtTime : Nat → String

/-! ## Long-format rendering: `src/formatter.rs` -/

/-- `formatter.rs::FileInfoFormatter::format_long`: permissions, link count,
owner, group, size, date, and the (colored) name, with the symlink target
appended after `" -> "` when the record is a symlink whose target was read
back. -/
def format_long (env : Env) (human_readable : Bool) (fi : FileInfo) : String :=
  let permissions := format_permissions fi.metadata
  let nlink := fi.nlink
  let owner := (env.users fi.uid).getD (toString fi.uid)
  let group := (env.groups fi.gid).getD (toString fi.gid)
  let size := if human_readable then format_size_human fi.size else toString fi.size
  let modified := env.fmtTime (fi.modified.getD 0)
  let display_name :=
    match fi.symlink_target with
    | some target => colorize_name fi.file_name fi.metadata ++ " -> " ++ target
    | none => colorize_name fi.file_name fi.metadata
  permissions ++ " " ++ padLeft 3 (toString nlink) ++ " " ++ owner ++ " " ++ group ++ " "
    ++ padLeft 8 size ++ " " ++ modified ++ " " ++ display_name

/-- Specification projection: the fixed-field part of a Long-format line
(everything strictly before the displayed name); `format_long` is this
followed by the name, with or without the symlink arrow. -/
def longPre (env : Env) (human_readable : Bool) (fi : FileInfo) : String :=
  format_permissions fi.metadata ++ " " ++ padLeft 3 (toString fi.nlink) ++ " " ++
    (env.users fi.uid).getD (toString fi.uid) ++ " " ++
    (env.groups fi.gid).getD (toString fi.gid) ++ " " ++
    padLeft 8 (if human_readable then format_size_human fi.size else toString fi.size) ++ " " ++
    env.fmtTime (fi.modified.getD 0) ++ " "

/-! ## The driver: `src/main.rs`

`main.rs` is self-contained (it declares no modules): it has its own `Args`,
`FileInfo` (without a stored base name), `collect_entries` (which propagates
per-entry errors with `?` instead of recording them), and a long format
without symlink targets.  Its `run` walks the requested paths and is the only
code that decides process exit behavior, so it is embedded separately here.
The filesystem is a function from paths to nodes. -/

namespace MainRs

/-- A path's resolution: a regular file with its metadata, a directory with
its metadata and its `read_dir` item sequence, or a failure (not found,
permission denied, ...). -/
inductive FsNode where
  | file (m : Meta)
  | dir (m : Meta) (items : List (Except String DirEntry))
  | missing (e : String)

def Fs : Type := String → FsNode

/-- `clap`-produced argument set of `main.rs`. -/
structure Args where
  long : Bool
  all : Bool
  size : Bool
  human_readable : Bool
  paths : List String
deriving DecidableEq

/-- Rust `Path::file_name()` with `main.rs`'s `unwrap_or(".")` fallback:
the last normal component of the path, or `"."` when there is none (empty
path, root, trailing `..`). -/
def pathFileName (p : String) : String :=
  match ((p.splitOn "/").filter fun s => s != "" && s != ".").getLast? with
  | some s => if s == ".." then "." else s
  | none => "."

/-- `main.rs`'s `FileInfo`: only path and metadata; the base name is
recomputed from the path on demand. -/
structure FileInfo where
  path : String
  metadata : Meta
deriving DecidableEq

/-- `main.rs::FileInfo::file_name`. -/
def FileInfo.file_name (fi : FileInfo) : String :=
  pathFileName fi.path

/-- `main.rs::FileInfo::from_entry`. -/
def FileInfo.from_entry (entry : DirEntry) : Except String FileInfo :=
  match entry.metaResult with
  | .ok metadata => .ok ⟨entry.path, metadata⟩
  | .error e => .error e

/-- `Path::is_file`: the path resolves to a regular file. -/
def isFile (fs : Fs) (p : String) : Bool :=
  match fs p with
  | .file _ => true
  | _ => false

/-- `fs::metadata` (the symlink-following stat used by
`main.rs::FileInfo::from_path`). -/
def fsMetadata (fs : Fs) (p : String) : Except String Meta :=
  match fs p with
  | .file m => .ok m
  | .dir m _ => .ok m
  | .missing e => .error e

/-- `main.rs::FileInfo::from_path`. -/
def FileInfo.from_path (fs : Fs) (p : String) : Except String FileInfo :=
  match fsMetadata fs p with
  | .ok metadata => .ok ⟨p, metadata⟩
  | .error e => .error e

/-- The entry loop of `main.rs::collect_entries`: `let entry = entry?;`
followed by the hidden-name filter and `FileInfo::from_entry(entry)?` — every
per-item failure is propagated, aborting the scan. -/
def collectGo (show_all : Bool) : List (Except String DirEntry) → Except String (List FileInfo)
  | [] => .ok []
  | .error e :: _ => .error e
  | .ok entry :: rest =>
    if !show_all && starts_with_dot entry.name then
      collectGo show_all rest
    else
      match FileInfo.from_entry entry with
      | .ok fi => (collectGo show_all rest).map (fi :: ·)
      | .error e => .error e

/-- `main.rs::collect_entries(dir, show_all)`: `fs::read_dir(dir)?` then the
aborting entry loop. -/
def collect_entries (show_all : Bool) (fs : Fs) (dir : String) : Except String (List FileInfo) :=
  match fs dir with
  | .file _ => .error "Not a directory (os error 20)"
  | .missing e => .error e
  | .dir _ items => collectGo show_all items

/-- `main.rs::FileInfo::display_long_format` (note: no symlink target). -/
def display_long_format (env : Env) (args : Args) (name : String) (fi : FileInfo) : String :=
  let permissions := format_permissions fi.metadata
  let nlink := fi.metadata.nlink
  let owner := (env.users fi.metadata.uid).getD (toString fi.metadata.uid)
  let group := (env.groups fi.metadata.gid).getD (toString fi.metadata.gid)
  let size :=
    if args.human_readable then format_size_human fi.metadata.len
    else toString fi.metadata.len
  let modified := env.fmtTime (fi.metadata.modified.getD 0)
  let colored_name := colorize_name name fi.metadata
  permissions ++ " " ++ padLeft 3 (toString nlink) ++ " " ++ owner ++ " " ++ group ++ " "
    ++ padLeft 8 size ++ " " ++ modified ++ " " ++ colored_name

/-- `main.rs::FileInfo::display`. -/
def display (env : Env) (args : Args) (fi : FileInfo) : String :=
  let name := fi.file_name
  if args.long then
    display_long_format env args name fi
  else if args.size then
    let size :=
      if args.human_readable then format_size_human fi.metadata.len
      else format_block_size fi.metadata
    size ++ " " ++ colorize_name name fi.metadata
  else
    colorize_name name fi.metadata

/-- One stdout line produced by `run`: a separator blank line, a `path:`
header, or a rendered entry. -/
inductive OutLine where
  | blank
  | header (path : String)
  | entry (line : String)
deriving DecidableEq

/-- The per-path body of `main.rs::run`: a single displayed record for a
regular file, otherwise `collect_entries(path, args.all)?` followed by the
in-place lowercase-name sort and one displayed line per record.  All the
`?`s inside the body make it all-or-nothing for this path. -/
def listPath (env : Env) (fs : Fs) (args : Args) (p : String) : Except String (List OutLine) :=
  if isFile fs p then
    match FileInfo.from_path fs p with
    | .ok fi => .ok [.entry (display env args fi)]
    | .error e => .error e
  else
    match collect_entries args.all fs p with
    | .ok entries =>
      let sorted := entries.mergeSort fun a b =>
        strCmp a.file_name.toLower b.file_name.toLower != Ordering.gt
      .ok (sorted.map fun fi => .entry (display env args fi))
    | .error e => .error e

/-- The path loop of `main.rs::run`: before each path, a blank line when this
is not the first of several paths, and a `path:` header when there are
several; the first error encountered is returned from `run` (the `?` aborts
the loop), together with the output printed so far. -/
def runGo (env : Env) (fs : Fs) (args : Args) (multiple : Bool) :
    List String → Bool → List OutLine × Option String
  | [], _ => ([], none)
  | p :: rest, isFirst =>
    let pre := (if multiple && !isFirst then [OutLine.blank] else [])
      ++ (if multiple then [OutLine.header p] else [])
    match listPath env fs args p with
    | .ok lines =>
      let r := runGo env fs args multiple rest false
      (pre ++ lines ++ r.1, r.2)
    | .error e => (pre, some e)

/-- `main.rs::run`: defaults the path list to `["."]` when empty, prints
headers and separators only when more than one path was requested, and stops
at the first `io::Error`. -/
def run (env : Env) (fs : Fs) (args : Args) : List OutLine × Option String :=
  let paths := if args.paths.isEmpty then ["."] else args.paths
  let multiple := decide (paths.length > 1)
  runGo env fs args multiple paths true

/-- `main.rs::main`: exit code 0 on `Ok`, otherwise `eprintln!("Error: {e}")`
and `std::process::exit(1)`.  Result: exit code, stdout lines, stderr
lines. -/
def main (env : Env) (fs : Fs) (args : Args) : Nat × List OutLine × List String :=
  match run env fs args with
  | (out, none) => (0, out, [])
  | (out, some e) => (1, out, ["Error: " ++ e])

end MainRs

/-! ## Concrete fixtures used by witnesses and counterexamples -/

/-- Trivial external environment: no id→name mappings, blank time strings. -/
def envT : Env :=
  ⟨fun _ => none, fun _ => none, fun _ => ""⟩

def metaFile : Meta := ⟨13, some 100, false, false, 0o644, 0, 0, 1, 8, none⟩

def metaDir : Meta := ⟨4096, some 50, true, false, 0o755, 0, 0, 2, 8, none⟩

def metaLink : Meta := ⟨10, some 60, false, true, 0o777, 0, 0, 1, 0, some "target.txt"⟩

def metaNoTime : Meta := ⟨1, none, false, false, 0o644, 0, 0, 1, 8, none⟩

/-- A filesystem on which every path fails to resolve. -/
def fsAllMissing : MainRs.Fs :=
  fun _ => .missing "No such file or directory (os error 2)"

/-- A filesystem with one listable directory `/ok` (containing `f.txt`) and
nothing else. -/
def fsOneDir : MainRs.Fs := fun p =>
  if p = "/ok" then .dir metaDir [Except.ok ⟨"f.txt", "/ok/f.txt", .ok metaFile⟩]
  else .missing "No such file or directory (os error 2)"

def argsPlain (paths : List String) : MainRs.Args :=
  ⟨false, false, false, false, paths⟩

def metaDir2 : Meta := ⟨4096, some 90, true, false, 0o755, 0, 0, 2, 8, none⟩

def fiSubA : FileInfo := ⟨"./a", "a", metaDir⟩

def fiSubB : FileInfo := ⟨"./b", "b", metaDir2⟩

def fiPlain : FileInfo := ⟨"./f.txt", "f.txt", metaFile⟩

def fiLink : FileInfo := ⟨"./link.txt", "link.txt", metaLink⟩

def eSample : DirEntry := ⟨"a.txt", "./a.txt", .ok metaFile⟩

end LsRust

namespace LsRust

/-! ## Order-theoretic facts about the comparison model -/

theorem natCompare_swap (a b : Nat) : compare b a = (compare a b).swap := by
  rcases Nat.lt_trichotomy a b with h | h | h
  · rw [Nat.compare_eq_lt.mpr h, Nat.compare_eq_gt.mpr h]; rfl
  · subst h
    rw [Nat.compare_eq_eq.mpr rfl]; rfl
  · rw [Nat.compare_eq_gt.mpr h, Nat.compare_eq_lt.mpr h]; rfl

theorem listCmp_cons (a b : Char) (as bs : List Char) :
    listCmp (a :: as) (b :: bs) =
      match compare a.toNat b.toNat with
      | .eq => listCmp as bs
      | .lt => .lt
      | .gt => .gt := rfl

theorem charToNat_inj {a b : Char} (h : a.toNat = b.toNat) : a = b :=
  Char.ext (UInt32.toNat.inj h)

theorem listCmp_eq_iff : ∀ {a b : List Char}, listCmp a b = .eq ↔ a = b
  | [], [] => by simp [listCmp]
  | [], _ :: _ => by simp [listCmp]
  | _ :: _, [] => by simp [listCmp]
  | a :: as, b :: bs => by
    rcases h : compare a.toNat b.toNat with _ | _ | _ <;>
      simp only [listCmp_cons, h]
    · refine iff_of_false (by simp) (fun he => ?_)
      injection he with h1 _
      rw [h1] at h
      exact absurd (Nat.compare_eq_lt.mp h) (Nat.lt_irrefl _)
    · have hab : a = b := charToNat_inj (Nat.compare_eq_eq.mp h)
      subst hab
      simp [listCmp_eq_iff]
    · refine iff_of_false (by simp) (fun he => ?_)
      injection he with h1 _
      rw [h1] at h
      exact absurd (Nat.compare_eq_gt.mp h) (Nat.lt_irrefl _)

theorem listCmp_swap : ∀ (a b : List Char), listCmp b a = (listCmp a b).swap
  | [], [] => rfl
  | [], _ :: _ => rfl
  | _ :: _, [] => rfl
  | a :: as, b :: bs => by
    rcases h : compare a.toNat b.toNat with _ | _ | _
    · have hs : compare b.toNat a.toNat = .gt := by
        rw [natCompare_swap a.toNat b.toNat, h]; rfl
      simp only [listCmp_cons, h, hs]
      rfl
    · have hs : compare b.toNat a.toNat = .eq := by
        rw [natCompare_swap a.toNat b.toNat, h]; rfl
      simp only [listCmp_cons, h, hs]
      exact listCmp_swap as bs
    · have hs : compare b.toNat a.toNat = .lt := by
        rw [natCompare_swap a.toNat b.toNat, h]; rfl
      simp only [listCmp_cons, h, hs]
      rfl

theorem listCmp_self (a : List Char) : listCmp a a = .eq :=
  listCmp_eq_iff.mpr rfl

theorem listCmp_lt_trans :
    ∀ {a b c : List Char}, listCmp a b = .lt → listCmp b c = .lt → listCmp a c = .lt
  | [], [], _, h1, _ => by simp [listCmp] at h1
  | [], _ :: _, [], _, h2 => by simp [listCmp] at h2
  | [], _ :: _, _ :: _, _, _ => by simp [listCmp]
  | _ :: _, [], _, h1, _ => by simp [listCmp] at h1
  | _ :: _, _ :: _, [], _, h2 => by simp [listCmp] at h2
  | a :: as, b :: bs, c :: cs, h1, h2 => by
    rcases hab : compare a.toNat b.toNat with _ | _ | _ <;>
      rcases hbc : compare b.toNat c.toNat with _ | _ | _ <;>
        simp only [listCmp_cons, hab, hbc] at h1 h2 ⊢
    · have hlt : a.toNat < c.toNat :=
        Nat.lt_trans (Nat.compare_eq_lt.mp hab) (Nat.compare_eq_lt.mp hbc)
      rw [Nat.compare_eq_lt.mpr hlt]
    · rw [show c.toNat = b.toNat from (Nat.compare_eq_eq.mp hbc).symm, hab]
    · cases h2
    · rw [show a.toNat = b.toNat from Nat.compare_eq_eq.mp hab, hbc]
    · rw [show a.toNat = b.toNat from Nat.compare_eq_eq.mp hab, hbc]
      exact listCmp_lt_trans h1 h2
    · cases h2
    · cases h1
    · cases h1
    · cases h1

theorem listCmp_le_trans {a b c : List Char}
    (h1 : listCmp a b ≠ .gt) (h2 : listCmp b c ≠ .gt) : listCmp a c ≠ .gt := by
  rcases hab : listCmp a b with _ | _ | _
  · rcases hbc : listCmp b c with _ | _ | _
    · rw [listCmp_lt_trans hab hbc]; simp
    · rw [show b = c from listCmp_eq_iff.mp hbc] at hab
      rw [hab]; simp
    · exact absurd hbc h2
  · rw [show a = b from listCmp_eq_iff.mp hab]
    exact h2
  · exact absurd hab h1

theorem listCmp_le_total (a b : List Char) :
    listCmp a b ≠ .gt ∨ listCmp b a ≠ .gt := by
  rcases h : listCmp a b with _ | _ | _
  · left; simp
  · left; simp
  · right
    rw [listCmp_swap b a] at h
    rcases h' : listCmp b a with _ | _ | _ <;> simp_all [Ordering.swap]

theorem strCmp_le_trans {a b c : String}
    (h1 : strCmp a b ≠ .gt) (h2 : strCmp b c ≠ .gt) : strCmp a c ≠ .gt :=
  listCmp_le_trans h1 h2

theorem strCmp_le_total (a b : String) : strCmp a b ≠ .gt ∨ strCmp b a ≠ .gt :=
  listCmp_le_total a.data b.data

theorem strCmp_eq_iff {a b : String} : strCmp a b = .eq ↔ a = b := by
  unfold strCmp
  rw [listCmp_eq_iff]
  exact ⟨fun h => String.ext h, fun h => by rw [h]⟩

theorem strCmp_swap (a b : String) : strCmp b a = (strCmp a b).swap :=
  listCmp_swap a.data b.data

theorem strCmp_self (a : String) : strCmp a a = .eq :=
  strCmp_eq_iff.mpr rfl

/-! ## The directory scan never aborts (C3, C4) -/

theorem collect_entries_entries_eq (showAll : Bool) :
    ∀ items : List (Except String DirEntry),
      (collect_entries showAll items).entries = items.filterMap (scanKept showAll)
  | [] => rfl
  | item :: rest => by
    have ih := collect_entries_entries_eq showAll rest
    cases item with
    | error e =>
      simp [collect_entries, scanKept, List.filterMap_cons, ih]
    | ok e =>
      cases hh : (!showAll && starts_with_dot e.name) with
      | true =>
        simp [collect_entries, scanKept, hh, List.filterMap_cons, ih]
      | false =>
        cases hm : e.metaResult with
        | ok m =>
          simp [collect_entries, scanKept, FileInfo.from_entry, hh, hm,
            List.filterMap_cons, ih]
        | error err =>
          simp [collect_entries, scanKept, FileInfo.from_entry, hh, hm,
            List.filterMap_cons, ih]

theorem collect_entries_errors_eq (showAll : Bool) :
    ∀ items : List (Except String DirEntry),
      (collect_entries showAll items).errors = items.filterMap (scanError showAll)
  | [] => rfl
  | item :: rest => by
    have ih := collect_entries_errors_eq showAll rest
    cases item with
    | error e =>
      simp [collect_entries, scanError, List.filterMap_cons, ih]
    | ok e =>
      cases hh : (!showAll && starts_with_dot e.name) with
      | true =>
        simp [collect_entries, scanError, hh, List.filterMap_cons, ih]
      | false =>
        cases hm : e.metaResult with
        | ok m =>
          simp [collect_entries, scanError, FileInfo.from_entry, hh, hm,
            List.filterMap_cons, ih]
        | error err =>
          simp [collect_entries, scanError, FileInfo.from_entry, hh, hm,
            List.filterMap_cons, ih]

/-- **C3.** For every directory scan (`directory.rs::collect_entries`), a
per-entry metadata failure is skipped and recorded rather than aborting: the
collected records are exactly the successfully read, filter-passing items in
input order — in particular every entry after a failure is still processed —
and the errors reported to the error channel after the scan completes are
exactly the recorded failures in order (one per failing item). -/
theorem collect_entries_partial_failure (showAll : Bool)
    (items : List (Except String DirEntry)) :
    (collect_entries showAll items).entries = items.filterMap (scanKept showAll) ∧
    (collect_entries showAll items).errors = items.filterMap (scanError showAll) :=
  ⟨collect_entries_entries_eq showAll items, collect_entries_errors_eq showAll items⟩

/-- **C4.** For every directory scan and flag value, a successfully read
entry's record is in the collected set iff it is not the case that the flag
is off and its base name starts with `.`; in particular with the flag on
every successfully read entry appears. -/
theorem collect_entries_filter_spec (showAll : Bool)
    (items : List (Except String DirEntry)) (e : DirEntry) (m : Meta)
    (hmem : Except.ok e ∈ items) (hm : e.metaResult = Except.ok m) :
    ((⟨e.path, e.name, m⟩ : FileInfo) ∈ (collect_entries showAll items).entries ↔
      ¬(showAll = false ∧ starts_with_dot e.name = true)) := by
  rw [collect_entries_entries_eq, List.mem_filterMap]
  constructor
  · rintro ⟨item, hitem, hkept⟩ ⟨hsa, hst⟩
    subst hsa
    cases item with
    | error e2 => simp [scanKept] at hkept
    | ok e2 =>
      simp only [scanKept, Bool.not_false, Bool.true_and] at hkept
      cases hs2 : starts_with_dot e2.name with
      | true => simp [hs2] at hkept
      | false =>
        cases hm2 : e2.metaResult with
        | ok m2 =>
          simp only [hs2, Bool.false_eq_true, if_false, hm2, Option.some.injEq] at hkept
          have hname : e2.name = e.name := by
            have := congrArg FileInfo.file_name hkept
            simpa using this
          rw [hname, hst] at hs2
          cases hs2
        | error e2e =>
          simp [hs2, hm2] at hkept
  · intro hno
    refine ⟨Except.ok e, hmem, ?_⟩
    have hcond : (!showAll && starts_with_dot e.name) = false := by
      cases showAll with
      | true => simp
      | false =>
        cases hs : starts_with_dot e.name with
        | false => simp
        | true => exact absurd ⟨rfl, hs⟩ hno
    simp [scanKept, hcond, hm]

/-- Witness: a visible entry collected with the flag off. -/
theorem collect_entries_filter_spec_witness :
    ((⟨"./a.txt", "a.txt", metaFile⟩ : FileInfo) ∈
        (collect_entries false [Except.ok eSample]).entries ↔
      ¬(false = false ∧ starts_with_dot "a.txt" = true)) :=
  collect_entries_filter_spec false [Except.ok eSample] eSample metaFile (by simp) rfl

/-! ## Sorting (C5, C6, C7) -/

theorem ordBne_gt_iff (o : Ordering) : (o != Ordering.gt) = true ↔ o ≠ Ordering.gt := by
  cases o <;> decide

/-- A stable sort does not reorder ties: filtering a `mergeSort` result by a
predicate whose holders are pairwise tied for the comparator returns the
holders in their original input order. -/
theorem mergeSort_filter_tied {α : Type} (le : α → α → Bool) (p : α → Bool)
    (htrans : ∀ a b c : α, le a b = true → le b c = true → le a c = true)
    (htotal : ∀ a b : α, (le a b || le b a) = true)
    (tied : ∀ a b : α, p a = true → p b = true → le a b = true) (l : List α) :
    (l.mergeSort le).filter p = l.filter p := by
  have hpw : (l.filter p).Pairwise fun a b => le a b = true :=
    List.pairwise_of_forall_mem_list fun a ha b hb =>
      tied a b (List.mem_filter.mp ha).2 (List.mem_filter.mp hb).2
  have hsub : List.Sublist (l.filter p) (l.mergeSort le) :=
    List.sublist_mergeSort htrans htotal hpw (List.filter_sublist l)
  have hsub2 : List.Sublist ((l.filter p).filter p) ((l.mergeSort le).filter p) :=
    hsub.filter p
  rw [List.filter_eq_self.mpr fun a ha => (List.mem_filter.mp ha).2] at hsub2
  have hperm : List.Perm ((l.mergeSort le).filter p) (l.filter p) :=
    (List.mergeSort_perm l le).filter p
  exact (hsub2.eq_of_length hperm.length_eq.symm).symm

theorem byName_trans : ∀ a b c : FileInfo,
    (entryCmp ⟨false, false⟩ a b != Ordering.gt) = true →
    (entryCmp ⟨false, false⟩ b c != Ordering.gt) = true →
    (entryCmp ⟨false, false⟩ a c != Ordering.gt) = true := by
  intro a b c h1 h2
  rw [ordBne_gt_iff] at h1 h2 ⊢
  exact strCmp_le_trans h1 h2

theorem byName_total : ∀ a b : FileInfo,
    ((entryCmp ⟨false, false⟩ a b != Ordering.gt) ||
      (entryCmp ⟨false, false⟩ b a != Ordering.gt)) = true := by
  intro a b
  rw [Bool.or_eq_true, ordBne_gt_iff, ordBne_gt_iff]
  exact strCmp_le_total a.file_name.toLower b.file_name.toLower

/-- **C5.** Sorting by name (the default Sort Configuration) permutes the
input, orders it by the byte-wise comparison of lower-cased base names, is
stable (entries with the same lower-cased name — in particular names
differing only by case — keep their original relative order), and is
idempotent. -/
theorem sort_by_name_spec :
    (∀ l : List FileInfo, List.Perm (sort_entries l ⟨false, false⟩) l) ∧
    (∀ l : List FileInfo, (sort_entries l ⟨false, false⟩).Pairwise
      fun a b => strCmp a.file_name.toLower b.file_name.toLower ≠ Ordering.gt) ∧
    (∀ (l : List FileInfo) (k : String),
      (sort_entries l ⟨false, false⟩).filter (fun e => e.file_name.toLower == k) =
        l.filter fun e => e.file_name.toLower == k) ∧
    (∀ l : List FileInfo,
      sort_entries (sort_entries l ⟨false, false⟩) ⟨false, false⟩ =
        sort_entries l ⟨false, false⟩) := by
  refine ⟨fun l => List.mergeSort_perm l _, fun l => ?_, fun l k => ?_, fun l => ?_⟩
  · exact (List.sorted_mergeSort byName_trans byName_total l).imp
      fun hab => (ordBne_gt_iff _).mp hab
  · refine mergeSort_filter_tied _ _ byName_trans byName_total (fun a b ha hb => ?_) l
    rw [ordBne_gt_iff]
    show strCmp a.file_name.toLower b.file_name.toLower ≠ Ordering.gt
    rw [eq_of_beq ha, eq_of_beq hb, strCmp_self]
    simp
  · exact List.mergeSort_of_sorted (List.sorted_mergeSort byName_trans byName_total l)

theorem byTime_le_iff (a b : FileInfo) :
    (entryCmp ⟨true, false⟩ a b != Ordering.gt) = true ↔
      b.modified_time ≤ a.modified_time := by
  rw [ordBne_gt_iff]
  show compare b.modified_time a.modified_time ≠ Ordering.gt ↔ _
  rw [ne_eq, Nat.compare_eq_gt]
  exact Nat.not_lt

theorem byTimeRev_le_iff (a b : FileInfo) :
    (entryCmp ⟨true, true⟩ a b != Ordering.gt) = true ↔
      a.modified_time ≤ b.modified_time := by
  rw [ordBne_gt_iff]
  show (match compare b.modified_time a.modified_time with
        | Ordering.lt => Ordering.gt
        | Ordering.gt => Ordering.lt
        | Ordering.eq => Ordering.eq) ≠ Ordering.gt ↔ _
  rcases h : compare b.modified_time a.modified_time with _ | _ | _
  · rw [Nat.compare_eq_lt] at h
    simp
    omega
  · rw [Nat.compare_eq_eq] at h
    simp
    omega
  · rw [Nat.compare_eq_gt] at h
    simp
    omega

theorem byTime_trans : ∀ a b c : FileInfo,
    (entryCmp ⟨true, false⟩ a b != Ordering.gt) = true →
    (entryCmp ⟨true, false⟩ b c != Ordering.gt) = true →
    (entryCmp ⟨true, false⟩ a c != Ordering.gt) = true := fun a b c h1 h2 =>
  (byTime_le_iff a c).mpr
    (Nat.le_trans ((byTime_le_iff b c).mp h2) ((byTime_le_iff a b).mp h1))

theorem byTime_total : ∀ a b : FileInfo,
    ((entryCmp ⟨true, false⟩ a b != Ordering.gt) ||
      (entryCmp ⟨true, false⟩ b a != Ordering.gt)) = true := by
  intro a b
  rw [Bool.or_eq_true]
  rcases Nat.le_total a.modified_time b.modified_time with h | h
  · exact Or.inr ((byTime_le_iff b a).mpr h)
  · exact Or.inl ((byTime_le_iff a b).mpr h)

theorem byTimeRev_trans : ∀ a b c : FileInfo,
    (entryCmp ⟨true, true⟩ a b != Ordering.gt) = true →
    (entryCmp ⟨true, true⟩ b c != Ordering.gt) = true →
    (entryCmp ⟨true, true⟩ a c != Ordering.gt) = true := fun a b c h1 h2 =>
  (byTimeRev_le_iff a c).mpr
    (Nat.le_trans ((byTimeRev_le_iff a b).mp h1) ((byTimeRev_le_iff b c).mp h2))

theorem byTimeRev_total : ∀ a b : FileInfo,
    ((entryCmp ⟨true, true⟩ a b != Ordering.gt) ||
      (entryCmp ⟨true, true⟩ b a != Ordering.gt)) = true := by
  intro a b
  rw [Bool.or_eq_true]
  rcases Nat.le_total a.modified_time b.modified_time with h | h
  · exact Or.inl ((byTimeRev_le_iff a b).mpr h)
  · exact Or.inr ((byTimeRev_le_iff b a).mpr h)

/-- **C6.** Sorting with the time key permutes the input into descending
modification-time order (most recently modified first); an unavailable
modification time is read as the epoch start (0) instead of failing; and the
reverse flag combined with the time key yields ascending modification-time
order. -/
theorem sort_by_time_spec :
    (∀ l : List FileInfo,
      List.Perm (sort_entries l ⟨true, false⟩) l ∧
      (sort_entries l ⟨true, false⟩).Pairwise
        fun a b => b.modified_time ≤ a.modified_time) ∧
    (∀ fi : FileInfo, fi.metadata.modified = none → fi.modified_time = 0) ∧
    (∀ l : List FileInfo,
      List.Perm (sort_entries l ⟨true, true⟩) l ∧
      (sort_entries l ⟨true, true⟩).Pairwise
        fun a b => a.modified_time ≤ b.modified_time) := by
  refine ⟨fun l => ⟨List.mergeSort_perm l _, ?_⟩, fun fi h => ?_,
    fun l => ⟨List.mergeSort_perm l _, ?_⟩⟩
  · exact (List.sorted_mergeSort byTime_trans byTime_total l).imp
      fun hab => (byTime_le_iff _ _).mp hab
  · simp [FileInfo.modified_time, h]
  · exact (List.sorted_mergeSort byTimeRev_trans byTimeRev_total l).imp
      fun hab => (byTimeRev_le_iff _ _).mp hab

/-- Witness: a record with an unavailable modification time sorts as epoch. -/
theorem sort_by_time_spec_witness :
    (⟨"./x", "x", metaNoTime⟩ : FileInfo).modified_time = 0 :=
  sort_by_time_spec.2.1 ⟨"./x", "x", metaNoTime⟩ rfl

theorem dirLe_trans : ∀ a b c : FileInfo,
    (strCmp a.file_name b.file_name != Ordering.gt) = true →
    (strCmp b.file_name c.file_name != Ordering.gt) = true →
    (strCmp a.file_name c.file_name != Ordering.gt) = true := fun _ _ _ h1 h2 =>
  (ordBne_gt_iff _).mpr (strCmp_le_trans ((ordBne_gt_iff _).mp h1) ((ordBne_gt_iff _).mp h2))

theorem dirLe_total : ∀ a b : FileInfo,
    ((strCmp a.file_name b.file_name != Ordering.gt) ||
      (strCmp b.file_name a.file_name != Ordering.gt)) = true := by
  intro a b
  rw [Bool.or_eq_true, ordBne_gt_iff, ordBne_gt_iff]
  exact strCmp_le_total _ _

/-- **C7.** The subdirectories chosen for recursion are exactly the
non-hidden directory entries; they are ordered case-sensitively by raw base
name; and — whenever the base names of the subdirectories are distinct, as
directory listings guarantee — the visiting order is the same no matter what
display Sort Configuration (`by_time`/`reverse`) has been applied to the
entry batch. -/
theorem recursion_order_spec :
    (∀ (l : List FileInfo) (fi : FileInfo),
      fi ∈ get_subdirectories l ↔ fi ∈ l ∧ fi.is_dir = true ∧ fi.is_hidden = false) ∧
    (∀ l : List FileInfo,
      List.Perm (sort_directories l) l ∧
      (sort_directories l).Pairwise
        fun a b => strCmp a.file_name b.file_name ≠ Ordering.gt) ∧
    (∀ (l : List FileInfo) (cfg : SortConfig),
      ((get_subdirectories l).map FileInfo.file_name).Nodup →
      sort_directories (get_subdirectories (sort_entries l cfg)) =
        sort_directories (get_subdirectories l)) := by
  refine ⟨fun l fi => ?_, fun l => ⟨List.mergeSort_perm l _, ?_⟩, fun l cfg hnd => ?_⟩
  · simp [get_subdirectories, List.mem_filter, Bool.and_eq_true, Bool.not_eq_true',
      and_assoc]
  · exact (List.sorted_mergeSort dirLe_trans dirLe_total l).imp
      fun hab => (ordBne_gt_iff _).mp hab
  · have hAB : List.Perm (get_subdirectories (sort_entries l cfg)) (get_subdirectories l) :=
      (List.mergeSort_perm l _).filter _
    have hperm : List.Perm (sort_directories (get_subdirectories (sort_entries l cfg)))
        (sort_directories (get_subdirectories l)) :=
      ((List.mergeSort_perm _ _).trans hAB).trans (List.mergeSort_perm _ _).symm
    refine List.Perm.eq_of_sorted ?_
      (List.sorted_mergeSort dirLe_trans dirLe_total _)
      (List.sorted_mergeSort dirLe_trans dirLe_total _) hperm
    intro a b ha hb h1 h2
    have hname : a.file_name = b.file_name := by
      have h1' : strCmp a.file_name b.file_name ≠ Ordering.gt := (ordBne_gt_iff _).mp h1
      have h2' : strCmp b.file_name a.file_name ≠ Ordering.gt := (ordBne_gt_iff _).mp h2
      rw [strCmp_swap] at h2'
      rcases hc : strCmp a.file_name b.file_name with _ | _ | _
      · rw [hc] at h2'
        simp [Ordering.swap] at h2'
      · exact strCmp_eq_iff.mp hc
      · exact absurd hc h1'
    have haB : a ∈ get_subdirectories l :=
      hAB.mem_iff.mp (List.mem_mergeSort.mp ha)
    have hbB : b ∈ get_subdirectories l := List.mem_mergeSort.mp hb
    exact List.inj_on_of_nodup_map hnd haB hbB hname

/-- Witness: with two distinct subdirectory names and a reversed by-time
display sort, the recursion order is unchanged. -/
theorem recursion_order_spec_witness :
    sort_directories (get_subdirectories
        (sort_entries [fiSubB, fiSubA, fiPlain] ⟨true, true⟩)) =
      sort_directories (get_subdirectories [fiSubB, fiSubA, fiPlain]) :=
  recursion_order_spec.2.2 [fiSubB, fiSubA, fiPlain] ⟨true, true⟩ (by
    have h : List.map FileInfo.file_name (get_subdirectories [fiSubB, fiSubA, fiPlain]) =
        ["b", "a"] := by decide
    rw [h]
    simp)

/-! ## Human-readable size formatting (C8) -/

/-- Loop invariant of `humanLoop`: the loop performs `k ≤ fuel` divisions,
each taken only while the current scaled value was at least 1024, and stops
below 1024 unless the fuel (the unit table) ran out. -/
theorem humanLoop_spec : ∀ (fuel n idx : Nat),
    ∃ k, k ≤ fuel ∧ humanLoop fuel n idx = idx + k ∧
      (∀ j, j < k → 1024 ^ (idx + j + 1) ≤ n) ∧
      (k < fuel → n < 1024 ^ (idx + k + 1))
  | 0, n, idx =>
    ⟨0, Nat.le_refl 0, rfl, fun j hj => absurd hj (Nat.not_lt_zero j),
      fun h => absurd h (Nat.lt_irrefl 0)⟩
  | fuel + 1, n, idx => by
    by_cases h : 1024 ^ (idx + 1) ≤ n
    · obtain ⟨k, hk, heq, hge, hlt⟩ := humanLoop_spec fuel n (idx + 1)
      refine ⟨k + 1, by omega, ?_, ?_, ?_⟩
      · have h1 : humanLoop (fuel + 1) n idx = humanLoop fuel n (idx + 1) := by
          simp [humanLoop, h]
        rw [h1, heq]
        omega
      · intro j hj
        cases j with
        | zero => simpa using h
        | succ j' =>
          have := hge j' (by omega)
          have hexp : idx + 1 + j' + 1 = idx + (j' + 1) + 1 := by omega
          rwa [hexp] at this
      · intro hk1
        have := hlt (by omega)
        have hexp : idx + 1 + k + 1 = idx + (k + 1) + 1 := by omega
        rwa [hexp] at this
    · refine ⟨0, by omega, ?_, fun j hj => absurd hj (Nat.not_lt_zero j), fun _ => ?_⟩
      · simp [humanLoop, h]
      · simpa using Nat.lt_of_not_le h

theorem humanLoop_eq_zero_of_lt {n : Nat} (hn : n < 1024) : humanLoop 5 n 0 = 0 := by
  obtain ⟨k, _, heq, hge, _⟩ := humanLoop_spec 5 n 0
  cases k with
  | zero => simpa using heq
  | succ k' =>
    have := hge 0 (by omega)
    simp at this
    omega

theorem humanLoop_ne_zero_of_ge {n : Nat} (hn : 1024 ≤ n) : humanLoop 5 n 0 ≠ 0 := by
  obtain ⟨k, _, heq, _, hlt⟩ := humanLoop_spec 5 n 0
  cases k with
  | zero =>
    have := hlt (by omega)
    simp at this
    omega
  | succ k' =>
    rw [heq]
    omega

/-- **C8.** Human-readable sizes divide by 1024 at most 5 times (once per
unit beyond bytes), and only while the scaled value `n / 1024^idx` is still
at least 1024 (the loop stops below 1024 unless the unit table is
exhausted); a size below 1024 renders as the plain right-justified byte
count with no unit suffix; when a division occurred, a scaled value below 10
gets exactly one decimal digit and a scaled value at or above 10 gets none,
both suffixed with the unit letter; the sub-1024 rendering is monotonic in
the displayed byte count; 1023 renders as `1023` and 1024 as `1.0K`. -/
theorem format_size_human_spec :
    (∀ n : Nat,
      humanLoop 5 n 0 ≤ 5 ∧
      (∀ j, j < humanLoop 5 n 0 → 1024 ^ (j + 1) ≤ n) ∧
      (humanLoop 5 n 0 < 5 → n < 1024 ^ (humanLoop 5 n 0 + 1))) ∧
    (∀ n : Nat, n < 1024 → format_size_human n = padLeft 4 (toString n)) ∧
    (∀ n : Nat, 1024 ≤ n → n < 10 * 1024 ^ humanLoop 5 n 0 →
      ∃ k d : Nat, d < 10 ∧
        format_size_human n =
          padLeft 3 (toString k ++ "." ++ toString d) ++ UNITS.getD (humanLoop 5 n 0) "") ∧
    (∀ n : Nat, 1024 ≤ n → 10 * 1024 ^ humanLoop 5 n 0 ≤ n →
      ∃ k : Nat, format_size_human n =
        padLeft 3 (toString k) ++ UNITS.getD (humanLoop 5 n 0) "") ∧
    (∀ s1 s2 : Nat, s1 < s2 → s2 < 1024 →
      ∃ t1 t2 : Nat, t1 < t2 ∧ format_size_human s1 = padLeft 4 (toString t1) ∧
        format_size_human s2 = padLeft 4 (toString t2)) ∧
    format_size_human 1023 = "1023" ∧
    format_size_human 1024 = "1.0K" := by
  have hplain : ∀ n : Nat, n < 1024 → format_size_human n = padLeft 4 (toString n) := by
    intro n hn
    simp [format_size_human, humanLoop_eq_zero_of_lt hn]
  refine ⟨fun n => ?_, hplain, fun n hn h10 => ?_, fun n hn h10 => ?_,
    fun s1 s2 h12 h2 => ?_, by decide, by decide⟩
  · obtain ⟨k, hk, heq, hge, hlt⟩ := humanLoop_spec 5 n 0
    rw [heq]
    refine ⟨by omega, fun j hj => ?_, fun hk5 => ?_⟩
    · have := hge j (by omega)
      simpa using this
    · have := hlt (by omega)
      simpa using this
  · refine ⟨rhe (10 * n) (1024 ^ humanLoop 5 n 0) / 10,
      rhe (10 * n) (1024 ^ humanLoop 5 n 0) % 10, Nat.mod_lt _ (by omega), ?_⟩
    simp only [format_size_human]
    rw [if_neg (humanLoop_ne_zero_of_ge hn), if_neg (by omega)]
  · refine ⟨rhe n (1024 ^ humanLoop 5 n 0), ?_⟩
    simp only [format_size_human]
    rw [if_neg (humanLoop_ne_zero_of_ge hn), if_pos h10]
  · exact ⟨s1, s2, h12, hplain s1 (by omega), hplain s2 h2⟩

/-- Witness: the decimal-place and plain-byte branches at concrete sizes
(13 bytes, 1.5 K, 20 K). -/
theorem format_size_human_spec_witness :
    format_size_human 13 = padLeft 4 (toString 13) ∧
    (∃ k d : Nat, d < 10 ∧
      format_size_human 1536 =
        padLeft 3 (toString k ++ "." ++ toString d) ++ UNITS.getD (humanLoop 5 1536 0) "") ∧
    (∃ k : Nat, format_size_human 20480 =
      padLeft 3 (toString k) ++ UNITS.getD (humanLoop 5 20480 0) "") :=
  ⟨format_size_human_spec.2.1 13 (by decide),
    format_size_human_spec.2.2.1 1536 (by decide) (by decide),
    format_size_human_spec.2.2.2.1 20480 (by decide) (by decide)⟩

/-! ## Long-format symlink rendering (C9) -/

theorem format_long_eq (env : Env) (hr : Bool) (fi : FileInfo) :
    format_long env hr fi = longPre env hr fi ++
      (match fi.symlink_target with
       | some target => colorize_name fi.file_name fi.metadata ++ " -> " ++ target
       | none => colorize_name fi.file_name fi.metadata) := rfl

/-- **C9.** In the Long format (`formatter.rs::format_long`), a record whose
type tag is symlink and whose target was read back — `fs::read_link` reads
the link itself, so this succeeds even when the target does not exist —
renders with the (colored) base name suffixed by `" -> "` and the raw target
path at the end of the line; a non-symlink record's line ends with the plain
(colored) base name, with no arrow suffix appended. -/
theorem format_long_symlink_spec :
    (∀ (env : Env) (hr : Bool) (fi : FileInfo) (t : String),
      fi.metadata.isSymlink = true → fi.metadata.readLink = some t →
      ∃ pre, format_long env hr fi =
        pre ++ (colorize_name fi.file_name fi.metadata ++ " -> " ++ t)) ∧
    (∀ (env : Env) (hr : Bool) (fi : FileInfo),
      fi.metadata.isSymlink = false →
      ∃ pre, format_long env hr fi = pre ++ colorize_name fi.file_name fi.metadata) := by
  constructor
  · intro env hr fi t hsym hrl
    refine ⟨longPre env hr fi, ?_⟩
    have hst : fi.symlink_target = some t := by
      simp [FileInfo.symlink_target, hsym, hrl]
    rw [format_long_eq, hst]
  · intro env hr fi hsym
    refine ⟨longPre env hr fi, ?_⟩
    have hst : fi.symlink_target = none := by
      simp [FileInfo.symlink_target, hsym]
    rw [format_long_eq, hst]

/-- Witness: a symlink `link.txt -> target.txt` in Long format. -/
theorem format_long_symlink_spec_witness :
    ∃ pre, format_long envT false fiLink =
      pre ++ (colorize_name "link.txt" metaLink ++ " -> " ++ "target.txt") :=
  format_long_symlink_spec.1 envT false fiLink "target.txt" rfl rfl

/-! ## Exit behavior and path-loop abort of `main.rs` (C1, C2) -/

/-- **C1** — the claim is refuted by `main.rs` (a code bug relative to the
spec and to `tests/cli_test.rs::test_nonexistent_path`, which asserts exit
success with the error only on stderr): with a single unresolvable root path
the filesystem-level error propagates out of `run`, `main` prints
`Error: ...` and exits 1, so a listing error does produce a non-zero exit. -/
theorem main_nonzero_exit_on_fs_error :
    MainRs.main envT fsAllMissing (argsPlain ["/nonexistent"]) =
      (1, [], ["Error: No such file or directory (os error 2)"]) := rfl

/-- **C2** — the claim is refuted by `main.rs`: with the path list
`["/nonexistent", "/ok"]` (where `/ok` is a perfectly listable directory),
`run` aborts at the first path's error after printing only that path's
header; `/ok` is never listed and no output for it appears. -/
theorem run_aborts_on_first_path_error :
    MainRs.run envT fsOneDir (argsPlain ["/nonexistent", "/ok"]) =
      ([MainRs.OutLine.header "/nonexistent"],
        some "No such file or directory (os error 2)") := rfl

/-! ## Empty path list defaults to `.` (C10) -/

theorem listPath_paths_irrel (env : Env) (fs : MainRs.Fs) (l a s h : Bool)
    (ps qs : List String) (p : String) :
    MainRs.listPath env fs ⟨l, a, s, h, ps⟩ p =
      MainRs.listPath env fs ⟨l, a, s, h, qs⟩ p := rfl

theorem runGo_paths_irrel (env : Env) (fs : MainRs.Fs) (l a s h : Bool)
    (ps qs : List String) (m : Bool) :
    ∀ (lst : List String) (first : Bool),
      MainRs.runGo env fs ⟨l, a, s, h, ps⟩ m lst first =
        MainRs.runGo env fs ⟨l, a, s, h, qs⟩ m lst first
  | [], _ => rfl
  | p :: rest, first => by
    have hrec := runGo_paths_irrel env fs l a s h ps qs m rest false
    simp only [MainRs.runGo]
    rw [listPath_paths_irrel env fs l a s h ps qs p, hrec]

theorem listPath_entry_only (env : Env) (fs : MainRs.Fs) (args : MainRs.Args) (p : String)
    (lines : List MainRs.OutLine) (h : MainRs.listPath env fs args p = .ok lines) :
    ∀ x ∈ lines, ∃ str, x = MainRs.OutLine.entry str := by
  unfold MainRs.listPath at h
  by_cases hf : MainRs.isFile fs p = true
  · rw [if_pos hf] at h
    cases hp : MainRs.FileInfo.from_path fs p with
    | ok fi =>
      rw [hp] at h
      injection h with h
      subst h
      intro x hx
      simp at hx
      exact ⟨_, hx⟩
    | error e =>
      rw [hp] at h
      cases h
  · rw [if_neg hf] at h
    cases hc : MainRs.collect_entries args.all fs p with
    | ok entries =>
      rw [hc] at h
      injection h with h
      subst h
      intro x hx
      simp only [List.mem_map] at hx
      obtain ⟨fi, _, hfi⟩ := hx
      exact ⟨_, hfi.symm⟩
    | error e =>
      rw [hc] at h
      cases h

/-- **C10.** When the requested path list is empty, `run` behaves exactly as
if the single path `"."` had been requested; and in that run (a single-path
run) no path header and no separating blank line is printed — the output is
entry lines only. -/
theorem run_empty_paths_spec :
    (∀ (env : Env) (fs : MainRs.Fs) (l a s h : Bool),
      MainRs.run env fs ⟨l, a, s, h, []⟩ = MainRs.run env fs ⟨l, a, s, h, ["."]⟩) ∧
    (∀ (env : Env) (fs : MainRs.Fs) (l a s h : Bool),
      MainRs.OutLine.blank ∉ (MainRs.run env fs ⟨l, a, s, h, []⟩).1 ∧
      ∀ p, MainRs.OutLine.header p ∉ (MainRs.run env fs ⟨l, a, s, h, []⟩).1) := by
  constructor
  · intro env fs l a s h
    show MainRs.runGo env fs ⟨l, a, s, h, []⟩ false ["."] true =
      MainRs.runGo env fs ⟨l, a, s, h, ["."]⟩ false ["."] true
    exact runGo_paths_irrel env fs l a s h [] ["."] false ["."] true
  · intro env fs l a s h
    have hsingle : MainRs.run env fs ⟨l, a, s, h, []⟩ =
        MainRs.runGo env fs ⟨l, a, s, h, []⟩ false ["."] true := rfl
    rw [hsingle]
    cases hlp : MainRs.listPath env fs ⟨l, a, s, h, []⟩ "." with
    | ok lines =>
      have hout : MainRs.runGo env fs ⟨l, a, s, h, []⟩ false ["."] true = (lines, none) := by
        simp [MainRs.runGo, hlp]
      rw [hout]
      constructor
      · intro hmem
        obtain ⟨str, hstr⟩ := listPath_entry_only env fs _ "." lines hlp _ hmem
        cases hstr
      · intro p hmem
        obtain ⟨str, hstr⟩ := listPath_entry_only env fs _ "." lines hlp _ hmem
        cases hstr
    | error e =>
      have hout : MainRs.runGo env fs ⟨l, a, s, h, []⟩ false ["."] true = ([], some e) := by
        simp [MainRs.runGo, hlp]
      rw [hout]
      simp

end LsRust
